import Mathlib

/-!
Verification development for the org-mode parser in `src/org/parser.py`.

The Python module is shallowly embedded: pure helper functions become Lean
functions, the line-classification loop becomes explicit state passing over
a `PState` record, mutable `Header` objects (which alias between the header
stack, parent children lists and the document) are modelled by a heap of
headers addressed by allocation index, the `ValueError` that
`datetime.date` can raise is modelled with `Except Unit`, and the
character-scanning loop of `parse_markup` (which does not terminate on all
inputs, because the link branch assigns a slice-relative match end to the
absolute index) is given explicit fuel, returning `none` on exhaustion.
-/

deriving instance DecidableEq for Except

namespace OrgPy

/-- The `Style` enum of the Python module. -/
inductive Style where
  | NONE
  | UNDERLINE
  | ITALICS
  | BOLD
  | STRIKE
  | CODE
  | VERBATIM
  deriving DecidableEq, Repr

/-- An entry of the `markup` list built by `parse_markup`: either an
`Element(style, text)` or a `Link(url, text)`.  The link fields are
`Option String` because the groups `(.+)?` of `link_re` may be absent,
in which case Python stores `None`. -/
inductive MElem where
  | element (style : Style) (text : String)
  | link (url : Option String) (text : Option String)
  deriving DecidableEq, Repr

/-- An entry of a drawer's `children` list: a `(key, value)` tuple pushed by
the drawer-property branch, a `Directive`, or a `Markup` block. -/
inductive DEntry where
  | pair (key value : String)
  | directive (name : String) (args : Option String)
  | markup (elements : List MElem)
  deriving DecidableEq, Repr

/-- The `Drawer` node class: a name and the accumulated children. -/
structure Drawer where
  name : String
  children : List DEntry
  deriving DecidableEq, Repr

/-- A node as it appears in the document list or in a header's children.
Headers are referenced by heap index because Python `Header` objects are
mutated after being linked (children appends, scheduled/deadline updates),
and the same object can be reachable from several places.  `pynone` models
the Python value `None`, which `parse` appends when a `:END:` line is seen
with no open drawer. -/
inductive Node where
  | header (id : Nat)
  | drawer (d : Drawer)
  | directive (name : String) (args : Option String)
  | markup (elements : List MElem)
  | pynone
  deriving DecidableEq, Repr

/-- A calendar date as produced by `datetime.date(year, month, day)`. -/
structure Date where
  year : Nat
  month : Nat
  day : Nat
  deriving DecidableEq, Repr

/-- The `Header` node class.  `text` holds the `Markup` assigned by
`header.text = parse_markup(text)`; `priority` holds the tuple returned by
`priority_match.groups(1)` (a list of group strings), matching the Python
slip of calling `groups` instead of `group`. -/
structure Header where
  level : Nat
  text : List MElem
  tags : List String
  todo : Option String
  priority : Option (List String)
  scheduled : Option Date
  deadline : Option Date
  children : List Node
  deriving DecidableEq, Repr

instance : Inhabited Header := ⟨⟨0, [], [], none, none, none, none, []⟩⟩

/-! ## Character and string helpers -/

/-- Python regex `\s` on the ASCII range: the whitespace characters
recognised by `str.strip` and the `\s` character class. -/
def pySpace (c : Char) : Bool :=
  c = ' ' || c = '\t' || c = '\n' || c = '\r' || c = '\x0b' || c = '\x0c'

/-- Python regex `\w` on the ASCII range: letters, digits and underscore. -/
def pyWord (c : Char) : Bool :=
  c.isAlphanum || c = '_'

/-- Python `str.lstrip()`. -/
def pyLstrip (cs : List Char) : List Char :=
  cs.dropWhile pySpace

/-- Python `str.rstrip()`. -/
def pyRstrip (cs : List Char) : List Char :=
  (cs.reverse.dropWhile pySpace).reverse

/-- Python `str.strip()`. -/
def pyStrip (cs : List Char) : List Char :=
  pyRstrip (pyLstrip cs)

/-- Python `org_string.split('\n')`: splitting on every newline, with
`"".split('\n') = ['']`. -/
def splitLines : List Char → List (List Char)
  | [] => [[]]
  | c :: t =>
    if c = '\n' then [] :: splitLines t
    else
      match splitLines t with
      | h :: r => (c :: h) :: r
      | [] => [[c]]

/-- Python `string.find(char, start)`, returning `none` for `-1`. -/
def strFindAux (c : Char) : List Char → Nat → Option Nat
  | [], _ => none
  | x :: t, i => if x = c then some i else strFindAux c t (i + 1)

/-- First index `≥ start` at which `c` occurs in `cs`, as in
`string.find(char, start)`. -/
def strFind (cs : List Char) (c : Char) (start : Nat) : Option Nat :=
  (strFindAux c (cs.drop start) 0).map (· + start)

/-- The `first_word` helper: text up to the first space, or the whole text
when there is no space. -/
def first_word (cs : List Char) : List Char :=
  cs.takeWhile (· ≠ ' ')

/-- The `markup_char` style lookup table. -/
def markup_char (c : Char) : Style :=
  if c = '_' then .UNDERLINE
  else if c = '/' then .ITALICS
  else if c = '*' then .BOLD
  else if c = '+' then .STRIKE
  else if c = '~' then .CODE
  else if c = '=' then .VERBATIM
  else .NONE

/-! ## The link regex `\[\s*?\[(.+)?\]\s*?\[(.+)?\]\s*?\]`

Hand-compiled backtracking matcher.  The lazy `\s*?` pieces are
deterministic because they are always followed by a required bracket
character which is not whitespace; the greedy optional groups `(.+)?` try
the longest participation first and absence last, exactly as Python's
engine does. -/

/-- Skip the whitespace run starting at index `i`. -/
def skipWs (cs : List Char) (i : Nat) : Nat :=
  i + ((cs.drop i).takeWhile pySpace).length

/-- Match `\]\s*?\]` at index `q`, returning the index just past the final
bracket. -/
def closeClose (cs : List Char) (q : Nat) : Option Nat :=
  if cs[q]? = some ']' then
    let r := skipWs cs (q + 1)
    if cs[r]? = some ']' then some (r + 1) else none
  else none

/-- Try the second group at index `c0` with participation length `l`
(longest first), then with the group absent. -/
def g2Try (cs : List Char) (c0 : Nat) : Nat → Option (Option String × Nat)
  | 0 => (closeClose cs c0).map (fun e => (none, e))
  | l + 1 =>
    match closeClose cs (c0 + l + 1) with
    | some e => some (some (String.mk ((cs.drop c0).take (l + 1))), e)
    | none => g2Try cs c0 l

/-- Match `(.+)?\]\s*?\]` at index `c0`. -/
def g2Match (cs : List Char) (c0 : Nat) : Option (Option String × Nat) :=
  g2Try cs c0 ((cs.drop c0).takeWhile (· ≠ '\n')).length

/-- Match `\]\s*?\[(.+)?\]\s*?\]` at index `q`. -/
def afterG1 (cs : List Char) (q : Nat) : Option (Option String × Nat) :=
  if cs[q]? = some ']' then
    let r := skipWs cs (q + 1)
    if cs[r]? = some '[' then g2Match cs (r + 1) else none
  else none

/-- Try the first group at index `a` with participation length `l`
(longest first), then with the group absent. -/
def g1Try (cs : List Char) (a : Nat) : Nat → Option (Option String × Option String × Nat)
  | 0 => (afterG1 cs a).map (fun p => (none, p.1, p.2))
  | l + 1 =>
    match afterG1 cs (a + l + 1) with
    | some (g2, e) => some (some (String.mk ((cs.drop a).take (l + 1))), g2, e)
    | none => g1Try cs a l

/-- `re.match(link_re, s)`: on success, the two groups and the end of the
match (its length, since the match is anchored at index 0). -/
def linkMatch (cs : List Char) : Option (Option String × Option String × Nat) :=
  match cs with
  | '[' :: _ =>
    let r := skipWs cs 1
    if cs[r]? = some '[' then
      let a := r + 1
      g1Try cs a ((cs.drop a).takeWhile (· ≠ '\n')).length
    else none
  | _ => none

/-! ## The `parse_markup` scanning loop -/

/-- Append a character to the plain-text buffer, as `text_node += char`
or `text_node = char`. -/
def pushBuf (tn : Option String) (c : Char) : Option String :=
  match tn with
  | some t => some (t.push c)
  | none => some (String.singleton c)

/-- Flush the plain-text buffer as a style-`NONE` element, when nonempty. -/
def pmFlush (tn : Option String) (m : List MElem) : List MElem :=
  match tn with
  | some t => m ++ [.element .NONE t]
  | none => m

/-- The `while index < len(string)` loop of `parse_markup`, with explicit
fuel.  The link branch reproduces the source exactly: the buffer is not
flushed before the link and the new index is the span end of the match on
the slice `string[index:]` (a slice-relative value) plus one. -/
def pmLoop : Nat → List Char → Nat → Option String → List MElem → Option (List MElem)
  | 0, _, _, _, _ => none
  | fuel + 1, cs, index, tn, m =>
    match cs[index]? with
    | none => some (pmFlush tn m)
    | some char =>
      match (if char = '[' then linkMatch (cs.drop index) else none) with
      | some (g1, g2, endMatch) =>
        pmLoop fuel cs (endMatch + 1) tn (m ++ [.link g1 g2])
      | none =>
        let style := markup_char char
        match strFind cs char (index + 1) with
        | some fm =>
          if style ≠ .NONE then
            pmLoop fuel cs (fm + 1) none
              (pmFlush tn m ++ [.element style (String.mk ((cs.drop (index + 1)).take (fm - (index + 1))))])
          else
            pmLoop fuel cs (index + 1) (pushBuf tn char) m
        | none => pmLoop fuel cs (index + 1) (pushBuf tn char) m

/-- `parse_markup` on a character list. -/
def parseMarkupList (fuel : Nat) (cs : List Char) : Option (List MElem) :=
  pmLoop fuel cs 0 none []

/-- `parse_markup` on a string, with fuel for the scanning loop. -/
def parse_markup (fuel : Nat) (s : String) : Option (List MElem) :=
  parseMarkupList fuel s.data

/-! ## Line classifiers (the compiled regexes of `parse`) -/

/-- `re.match(header_re, line)` for `^(\*+)\s(.*?)\s*$`: the number of
leading stars and the heading text with trailing whitespace stripped. -/
def headerMatch (cs : List Char) : Option (Nat × List Char) :=
  let stars := cs.takeWhile (· = '*')
  match cs.dropWhile (· = '*') with
  | c :: rest => if 1 ≤ stars.length ∧ pySpace c then some (stars.length, pyRstrip rest) else none
  | [] => none

/-- Whether `w` can complete a match of `([^ ]+?:)+?$`: nonempty, free of
spaces, of length at least two and ending in a colon (a single group
`[^ ]+?` may itself contain colons, so these conditions are exact). -/
def tagSuffixOk (w : List Char) : Bool :=
  2 ≤ w.length && w.all (· ≠ ' ') && w.getLast? = some ':'

/-- Scan for the leftmost start of a match of `tag_re`, as `re.search`. -/
def tagSearchAux : List Char → Nat → Option Nat
  | [], _ => none
  | c :: rest, i =>
    if c = ':' ∧ tagSuffixOk rest then some i else tagSearchAux rest (i + 1)

/-- `re.search(tag_re, text)` for `:([^ ]+?:)+?$`: the start index of the
match, which always extends to the end of the text. -/
def tagSearch (cs : List Char) : Option Nat :=
  tagSearchAux cs 0

/-- Python `str.split(':')`. -/
def splitOnColon : List Char → List (List Char)
  | [] => [[]]
  | c :: t =>
    if c = ':' then [] :: splitOnColon t
    else
      match splitOnColon t with
      | h :: r => (c :: h) :: r
      | [] => [[c]]

/-- `tags.group(0).split(':')[1:-1]`. -/
def tagsOf (g0 : List Char) : List String :=
  ((splitOnColon g0).map String.mk).drop 1 |>.dropLast

/-- `re.match(priority_re, text)` for `" \[#([A-Z])\]"`: the priority
letter, when the text begins with a space followed by the marker. -/
def priorityMatch (cs : List Char) : Option Char :=
  match cs with
  | ' ' :: '[' :: '#' :: c :: ']' :: _ =>
    if 'A' ≤ c ∧ c ≤ 'Z' then some c else none
  | _ => none

/-- `re.match(directive_re, line)` for `#\+(\w+)(:.*)?$`: the directive
name and the optional argument group (which keeps its leading colon). -/
def directiveMatch (cs : List Char) : Option (List Char × Option (List Char)) :=
  match cs with
  | '#' :: '+' :: rest =>
    let w := rest.takeWhile pyWord
    if w.isEmpty then none
    else
      match rest.dropWhile pyWord with
      | [] => some (w, none)
      | ':' :: r2 => some (w, some (':' :: r2))
      | _ => none
  | _ => none

/-- `re.match(drawer_re, line)` for `^:(\w+?):\s*?$`: the drawer name. -/
def drawerMatch (cs : List Char) : Option (List Char) :=
  match cs with
  | ':' :: rest =>
    let w := rest.takeWhile pyWord
    if w.isEmpty then none
    else
      match rest.dropWhile pyWord with
      | ':' :: ws => if ws.all pySpace then some w else none
      | _ => none
  | _ => none

/-- `re.match(drawer_child_re, line)` for `^:(\w+?):\s*?(.+)$`: the key and
the raw value group (the lazy `\s*?` matches nothing, so the group keeps
any leading whitespace; the caller strips it). -/
def drawerChildMatch (cs : List Char) : Option (List Char × List Char) :=
  match cs with
  | ':' :: rest =>
    let w := rest.takeWhile pyWord
    if w.isEmpty then none
    else
      match rest.dropWhile pyWord with
      | ':' :: r2 => if r2.isEmpty then none else some (w, r2)
      | _ => none
  | _ => none

/-! ## Date parsing -/

/-- Whether `.+?>` can match: a character other than a newline followed by
a `>` reachable without crossing a newline. -/
def findGt : List Char → Bool
  | [] => false
  | c :: t => c = '>' || (c ≠ '\n' && findGt t)

/-- Existence of the `.+?>` tail of `date_re` after the literal space. -/
def hasCloser : List Char → Bool
  | [] => false
  | c :: t => c ≠ '\n' && findGt t

/-- Numeric value of a digit run. -/
def digitsToNat (cs : List Char) : Nat :=
  cs.foldl (fun n c => n * 10 + (c.toNat - 48)) 0

/-- `re.match(date_re, date)` for `<(\d{4})-(\d{2})-(\d{2}) .+?>`:
the year, month and day groups as numbers. -/
def dateMatch (cs : List Char) : Option (Nat × Nat × Nat) :=
  match cs with
  | '<' :: y1 :: y2 :: y3 :: y4 :: '-' :: m1 :: m2 :: '-' :: d1 :: d2 :: ' ' :: rest =>
    if (y1.isDigit && y2.isDigit && y3.isDigit && y4.isDigit &&
        m1.isDigit && m2.isDigit && d1.isDigit && d2.isDigit && hasCloser rest) then
      some (digitsToNat [y1, y2, y3, y4], digitsToNat [m1, m2], digitsToNat [d1, d2])
    else none
  | _ => none

/-- Gregorian leap year, as used by `datetime.date`. -/
def isLeap (y : Nat) : Bool :=
  y % 4 = 0 && (y % 100 ≠ 0 || y % 400 = 0)

/-- Length of a month, as used by `datetime.date`. -/
def daysInMonth (y m : Nat) : Nat :=
  if m = 2 then (if isLeap y then 29 else 28)
  else if m = 4 ∨ m = 6 ∨ m = 9 ∨ m = 11 then 30
  else 31

/-- The range check of `datetime.date(year, month, day)`, which raises
`ValueError` exactly when this is false (the year is at most 9999 here
since it comes from four digits). -/
def validDate (y m d : Nat) : Bool :=
  1 ≤ y && 1 ≤ m && m ≤ 12 && 1 ≤ d && d ≤ daysInMonth y m

/-- `parse_date`: `.ok none` when the regex does not match, `.ok (some _)`
for a valid date, and `.error ()` for the `ValueError` that
`datetime.date` raises when the matched digits are out of range. -/
def parse_date (cs : List Char) : Except Unit (Option Date) :=
  match dateMatch (pyStrip cs) with
  | none => .ok none
  | some (y, m, d) =>
    if validDate y m d then .ok (some ⟨y, m, d⟩) else .error ()

/-! ## The structural line parser

`Header` objects are mutable in Python and alias between the header stack,
parent children lists and the document; the embedding therefore keeps a
heap `List Header` indexed by allocation order, and `Node.header i` is a
reference into it.  The parser state carries the document list, the header
stack (innermost heading first, i.e. the reverse of the Python list), the
open drawer and the heap. -/

structure PState where
  document : List Node
  stack : List Nat
  openDrawer : Option Drawer
  heap : List Header
  deriving DecidableEq, Repr

/-- Heap lookup with the `Inhabited` default out of range. -/
def hGet (heap : List Header) (i : Nat) : Header :=
  heap.getD i default

/-- Append a node to the children of the header at heap index `i`
(`current_header.children.append(...)`). -/
def appendChild (heap : List Header) (i : Nat) (n : Node) : List Header :=
  heap.set i { hGet heap i with children := (hGet heap i).children ++ [n] }

/-- `current_header.scheduled = v`. -/
def setSched (heap : List Header) (i : Nat) (v : Option Date) : List Header :=
  heap.set i { hGet heap i with scheduled := v }

/-- `current_header.deadline = v`. -/
def setDead (heap : List Header) (i : Nat) (v : Option Date) : List Header :=
  heap.set i { hGet heap i with deadline := v }

/-- The node pushed when a drawer closes: the open drawer, or the Python
value `None` when no drawer is open. -/
def drawerNode : Option Drawer → Node
  | some d => .drawer d
  | none => .pynone

/-- The `:END:` branch: push the open drawer (or `None`) to the current
header's children, or to the document when the stack is empty. -/
def closeDrawer (st : PState) : PState :=
  match st.stack with
  | cur :: _ => { st with heap := appendChild st.heap cur (drawerNode st.openDrawer), openDrawer := none }
  | [] => { st with document := st.document ++ [drawerNode st.openDrawer], openDrawer := none }

/-- Start a new drawer, discarding whatever `open_drawer` held. -/
def openNewDrawer (st : PState) (name : String) : PState :=
  { st with openDrawer := some ⟨name, []⟩ }

/-- Append a `(key, value)` pair to the open drawer. -/
def addDrawerPair (st : PState) (d : Drawer) (k v : String) : PState :=
  { st with openDrawer := some { d with children := d.children ++ [.pair k v] } }

/-- Set the scheduled date of the innermost open heading. -/
def setSchedTop (st : PState) (v : Option Date) : PState :=
  match st.stack with
  | cur :: _ => { st with heap := setSched st.heap cur v }
  | [] => st

/-- Set the deadline date of the innermost open heading. -/
def setDeadTop (st : PState) (v : Option Date) : PState :=
  match st.stack with
  | cur :: _ => { st with heap := setDead st.heap cur v }
  | [] => st

/-- Attach a directive to the open drawer, else the open heading, else the
document. -/
def attachDirective (st : PState) (name : String) (args : Option String) : PState :=
  match st.openDrawer with
  | some d => { st with openDrawer := some { d with children := d.children ++ [.directive name args] } }
  | none =>
    match st.stack with
    | cur :: _ => { st with heap := appendChild st.heap cur (.directive name args) }
    | [] => { st with document := st.document ++ [.directive name args] }

/-- Attach a markup block to the open drawer, else the open heading, else
the document. -/
def attachMarkup (st : PState) (m : List MElem) : PState :=
  match st.openDrawer with
  | some d => { st with openDrawer := some { d with children := d.children ++ [.markup m] } }
  | none =>
    match st.stack with
    | cur :: _ => { st with heap := appendChild st.heap cur (.markup m) }
    | [] => { st with document := st.document ++ [.markup m] }

/-- The unwinding pop loop: `top_header = header_stack.pop()` followed by
`while header.level <= top_header.level and header_stack != []`.  The
first component is the last popped header, the second the remaining
stack. -/
def unwind (heap : List Header) (lvl : Nat) : Nat → List Nat → Nat × List Nat
  | t, [] => (t, [])
  | t, t' :: rest =>
    if lvl ≤ (hGet heap t).level then unwind heap lvl t' rest else (t, t' :: rest)

/-- The header-hierarchy logic of `parse` after a heading line has been
built: push when the stack is empty; when the new level is at most the
current top's level, run the unwinding pop loop, append the last popped
header to the document and push; otherwise link the new header as a child
of the current top and push. -/
def pushHeader (st : PState) (hdr : Header) : PState :=
  let id := st.heap.length
  let heap := st.heap ++ [hdr]
  match st.stack with
  | [] => { st with heap := heap, stack := [id] }
  | cur :: rest =>
    if hdr.level ≤ (hGet st.heap cur).level then
      let p := unwind st.heap hdr.level cur rest
      { st with heap := heap, document := st.document ++ [.header p.1], stack := id :: p.2 }
    else
      { st with heap := appendChild heap cur (.header id), stack := id :: cur :: rest }

/-- Build the `Header` object for a heading line: extract trailing tags,
then a recognized TODO keyword, then the priority marker, and parse the
remaining text as inline markup (which needs fuel). -/
def mkHeader (fuel : Nat) (kws : List String) (level : Nat) (rawText : List Char) : Option Header :=
  let tagged :=
    match tagSearch rawText with
    | some i => (tagsOf (rawText.drop i), pyStrip (rawText.take i))
    | none => ([], rawText)
  let text1 := tagged.2
  let fw := String.mk (first_word text1)
  let extracted :=
    if fw ∈ kws then
      let t := text1.drop (fw.length + 1)
      match priorityMatch t with
      | some c => (some fw, some [String.singleton c], t.drop 6)
      | none => (some fw, none, t)
    else (none, none, text1)
  (parseMarkupList fuel extracted.2.2).map fun m =>
    ⟨level, m, tagged.1, extracted.1, extracted.2.1, none, none, []⟩

/-- Classification of a line that is neither a drawer boundary nor a
drawer property: heading, `SCHEDULED:`/`DEADLINE:`, directive, or the
plain-markup fallback, in the priority order of the source. -/
def pstepRest (fuel : Nat) (kws : List String) (st : PState) (cs : List Char) : Option (Except Unit PState) :=
  match headerMatch cs with
  | some lt => (mkHeader fuel kws lt.1 lt.2).map fun hdr => .ok (pushHeader st hdr)
  | none =>
    if st.stack ≠ [] ∧ cs.take 10 = "SCHEDULED:".data then
      match parse_date (cs.drop 10) with
      | .error _ => some (.error ())
      | .ok v => some (.ok (setSchedTop st v))
    else if st.stack ≠ [] ∧ cs.take 9 = "DEADLINE:".data then
      match parse_date (cs.drop 9) with
      | .error _ => some (.error ())
      | .ok v => some (.ok (setDeadTop st v))
    else
      match directiveMatch cs with
      | some na => some (.ok (attachDirective st (String.mk na.1) (na.2.map String.mk)))
      | none => (parseMarkupList fuel cs).map fun m => .ok (attachMarkup st m)

/-- One iteration of the `for line in org_string.split('\n')` loop,
classifying a single line.  `none` models non-termination of a
`parse_markup` call, `.error` the propagating `ValueError` of
`parse_date`. -/
def pstep (fuel : Nat) (kws : List String) (st : PState) (cs : List Char) : Option (Except Unit PState) :=
  match drawerMatch cs with
  | some name =>
    some (.ok (if cs = ":END:".data then closeDrawer st else openNewDrawer st (String.mk name)))
  | none =>
    match st.openDrawer, drawerChildMatch cs with
    | some d, some kv => some (.ok (addDrawerPair st d (String.mk kv.1) (String.mk (pyStrip kv.2))))
    | _, _ => pstepRest fuel kws st cs

/-- Run the line loop over a list of lines. -/
def runLines (fuel : Nat) (kws : List String) : PState → List (List Char) → Option (Except Unit PState)
  | st, [] => some (.ok st)
  | st, l :: ls =>
    match pstep fuel kws st l with
    | none => none
    | some (.error e) => some (.error e)
    | some (.ok st') => runLines fuel kws st' ls

/-- The initial parser state. -/
def initState : PState := ⟨[], [], none, []⟩

/-- `document += header_stack; return document`: the stack is appended in
Python list order, i.e. outermost heading first.  The open drawer is not
consulted. -/
def finalize (st : PState) : List Node × List Header :=
  (st.document ++ st.stack.reverse.map Node.header, st.heap)

/-- The default keyword set `{'TODO', 'DONE'}`. -/
def defaultKws : List String := ["TODO", "DONE"]

/-- The `parse` entry point: split into lines, run the classification loop
and drain the heading stack.  The result pairs the top-level node sequence
with the header heap that its `Node.header` references point into. -/
def parse (fuel : Nat) (s : String) (kws : List String) : Option (Except Unit (List Node × List Header)) :=
  (runLines fuel kws initState (splitLines s.data)).map (Except.map finalize)

/-! ## Counting occurrences of header references -/

/-- Number of occurrences of the reference `Node.header j` in a node
list. -/
def countNode (j : Nat) : List Node → Nat
  | [] => 0
  | n :: t => (if n = Node.header j then 1 else 0) + countNode j t

/-- Number of occurrences of `j` in a list of heap indices. -/
def natCount (j : Nat) : List Nat → Nat
  | [] => 0
  | i :: t => (if i = j then 1 else 0) + natCount j t

/-- Total number of occurrences of `Node.header j` across the children
lists of all headers in the heap. -/
def childCount (j : Nat) : List Header → Nat
  | [] => 0
  | h :: t => countNode j h.children + childCount j t

theorem countNode_append (j : Nat) (a b : List Node) :
    countNode j (a ++ b) = countNode j a + countNode j b := by
  induction a with
  | nil => simp [countNode]
  | cons n t ih => simp [countNode, ih]; omega

theorem countNode_single_header (j i : Nat) :
    countNode j [Node.header i] = if i = j then 1 else 0 := by
  simp [countNode]

theorem countNode_single_nonheader (j : Nat) (n : Node) (h : ∀ i, n ≠ Node.header i) :
    countNode j [n] = 0 := by
  simp [countNode, h j]

theorem countNode_eq_zero_of_not_mem {j : Nat} {ns : List Node}
    (h : Node.header j ∉ ns) : countNode j ns = 0 := by
  induction ns with
  | nil => rfl
  | cons n t ih =>
    simp only [List.mem_cons, not_or] at h
    simp [countNode, Ne.symm h.1, ih h.2]

theorem mem_of_countNode_pos {j : Nat} {ns : List Node}
    (h : 0 < countNode j ns) : Node.header j ∈ ns := by
  by_contra hc
  rw [countNode_eq_zero_of_not_mem hc] at h
  exact Nat.lt_irrefl 0 h

theorem natCount_append (j : Nat) (a b : List Nat) :
    natCount j (a ++ b) = natCount j a + natCount j b := by
  induction a with
  | nil => simp [natCount]
  | cons n t ih => simp [natCount, ih]; omega

theorem natCount_eq_zero_of_not_mem {j : Nat} {l : List Nat}
    (h : j ∉ l) : natCount j l = 0 := by
  induction l with
  | nil => rfl
  | cons i t ih =>
    simp only [List.mem_cons, not_or] at h
    simp [natCount, Ne.symm h.1, ih h.2]

theorem natCount_le_one_of_nodup {j : Nat} {l : List Nat}
    (h : l.Nodup) : natCount j l ≤ 1 := by
  induction l with
  | nil => simp [natCount]
  | cons i t ih =>
    rw [List.nodup_cons] at h
    by_cases hij : i = j
    · subst hij
      simp [natCount, natCount_eq_zero_of_not_mem h.1]
    · simp [natCount, hij, ih h.2]

theorem natCount_reverse (j : Nat) (l : List Nat) :
    natCount j l.reverse = natCount j l := by
  induction l with
  | nil => rfl
  | cons i t ih => simp [natCount, List.reverse_cons, natCount_append, ih]; omega

theorem countNode_map_header (j : Nat) (l : List Nat) :
    countNode j (l.map Node.header) = natCount j l := by
  induction l with
  | nil => rfl
  | cons i t ih => simp [countNode, natCount, ih]

/-! ## Heap access lemmas -/

theorem hGet_nil (i : Nat) : hGet [] i = default := by
  simp [hGet]

theorem hGet_cons_zero (h : Header) (t : List Header) : hGet (h :: t) 0 = h := rfl

theorem hGet_cons_succ (h : Header) (t : List Header) (i : Nat) :
    hGet (h :: t) (i + 1) = hGet t i := rfl

theorem hGet_append_lt (l' : List Header) :
    ∀ (heap : List Header) (i : Nat), i < heap.length → hGet (heap ++ l') i = hGet heap i := by
  intro heap
  induction heap with
  | nil => intro i h; exact absurd h (by simp)
  | cons h t ih =>
    intro i hi
    match i with
    | 0 => rfl
    | i + 1 =>
      rw [List.cons_append, hGet_cons_succ, hGet_cons_succ]
      exact ih i (by simpa using hi)

theorem hGet_append_len :
    ∀ (heap : List Header) (h : Header), hGet (heap ++ [h]) heap.length = h := by
  intro heap
  induction heap with
  | nil => intro h; rfl
  | cons x t ih => intro h; exact ih h

theorem hGet_set_self :
    ∀ (heap : List Header) (i : Nat) (h' : Header), i < heap.length →
      hGet (heap.set i h') i = h' := by
  intro heap
  induction heap with
  | nil => intro i h' h; exact absurd h (by simp)
  | cons x t ih =>
    intro i h' hi
    match i with
    | 0 => rfl
    | i + 1 => exact ih i h' (by simpa using hi)

theorem hGet_set_ne :
    ∀ (heap : List Header) (i j : Nat) (h' : Header), i ≠ j →
      hGet (heap.set i h') j = hGet heap j := by
  intro heap
  induction heap with
  | nil => intro i j h' _; simp [List.set]
  | cons x t ih =>
    intro i j h' hne
    match i, j with
    | 0, 0 => exact absurd rfl hne
    | 0, j + 1 => rfl
    | i + 1, 0 => rfl
    | i + 1, j + 1 => exact ih i j h' (by omega)

theorem length_appendChild (heap : List Header) (i : Nat) (n : Node) :
    (appendChild heap i n).length = heap.length := by
  simp [appendChild]

theorem hGet_appendChild_self {heap : List Header} {i : Nat} (n : Node)
    (hi : i < heap.length) :
    hGet (appendChild heap i n) i =
      { hGet heap i with children := (hGet heap i).children ++ [n] } := by
  simp [appendChild, hGet_set_self _ _ _ hi]

theorem hGet_appendChild_ne {heap : List Header} {i j : Nat} (n : Node)
    (hne : i ≠ j) : hGet (appendChild heap i n) j = hGet heap j := by
  simp [appendChild, hGet_set_ne _ _ _ _ hne]

theorem level_appendChild {heap : List Header} {i : Nat} (n : Node) (j : Nat)
    (hi : i < heap.length) :
    (hGet (appendChild heap i n) j).level = (hGet heap j).level := by
  by_cases hij : i = j
  · subst hij; rw [hGet_appendChild_self n hi]
  · rw [hGet_appendChild_ne n hij]

theorem children_appendChild {heap : List Header} {i : Nat} (n : Node) (j : Nat)
    (hi : i < heap.length) :
    (hGet (appendChild heap i n) j).children =
      if i = j then (hGet heap i).children ++ [n] else (hGet heap j).children := by
  by_cases hij : i = j
  · subst hij; rw [hGet_appendChild_self n hi, if_pos rfl]
  · rw [hGet_appendChild_ne n hij, if_neg hij]

theorem childCount_append (j : Nat) (a b : List Header) :
    childCount j (a ++ b) = childCount j a + childCount j b := by
  induction a with
  | nil => simp [childCount]
  | cons h t ih => simp [childCount, ih]; omega

theorem childCount_appendChild (j : Nat) (n : Node) :
    ∀ (heap : List Header) (i : Nat), i < heap.length →
      childCount j (appendChild heap i n) = childCount j heap + countNode j [n] := by
  intro heap
  induction heap with
  | nil => intro i h; exact absurd h (by simp)
  | cons h t ih =>
    intro i hi
    match i with
    | 0 =>
      show childCount j ({ h with children := h.children ++ [n] } :: t) = _
      simp [childCount, countNode_append]
      omega
    | i + 1 =>
      have hstep : appendChild (h :: t) (i + 1) n = h :: appendChild t i n := rfl
      rw [hstep]
      simp only [childCount]
      rw [ih i (by simpa using hi)]
      omega

theorem childCount_set_children_eq (j : Nat) :
    ∀ (heap : List Header) (i : Nat) (h' : Header),
      h'.children = (hGet heap i).children →
      childCount j (heap.set i h') = childCount j heap := by
  intro heap
  induction heap with
  | nil => intro i h' _; simp [List.set]
  | cons h t ih =>
    intro i h' hch
    match i with
    | 0 =>
      show childCount j (h' :: t) = _
      simp only [childCount, hch, hGet_cons_zero]
    | i + 1 =>
      show childCount j (h :: t.set i h') = _
      simp only [childCount]
      rw [ih i h' hch]

theorem childCount_append_single (j : Nat) (heap : List Header) (hdr : Header) :
    childCount j (heap ++ [hdr]) = childCount j heap + countNode j hdr.children := by
  rw [childCount_append]
  simp [childCount]

theorem exists_of_childCount_pos {j : Nat} :
    ∀ {heap : List Header}, 0 < childCount j heap →
      ∃ p, p < heap.length ∧ Node.header j ∈ (hGet heap p).children := by
  intro heap
  induction heap with
  | nil => intro h; exact absurd h (by simp [childCount])
  | cons x t ih =>
    intro h
    by_cases hx : 0 < countNode j x.children
    · exact ⟨0, by simp, mem_of_countNode_pos hx⟩
    · have ht : 0 < childCount j t := by
        simp only [childCount] at h
        omega
      obtain ⟨p, hp, hm⟩ := ih ht
      exact ⟨p + 1, by simpa using hp, hm⟩

theorem drawerNode_ne_header (od : Option Drawer) (j : Nat) :
    drawerNode od ≠ Node.header j := by
  cases od <;> simp [drawerNode]

theorem unwind_suffix (heap : List Header) (lvl : Nat) :
    ∀ (t : Nat) (rest : List Nat),
      ((unwind heap lvl t rest).1 :: (unwind heap lvl t rest).2) <:+ (t :: rest) := by
  intro t rest
  induction rest generalizing t with
  | nil => simp [unwind]
  | cons t' r ih =>
    rw [unwind]
    by_cases hc : lvl ≤ (hGet heap t).level
    · rw [if_pos hc]
      exact (ih t').trans (List.suffix_cons t (t' :: r))
    · rw [if_neg hc]

/-! ## The parser-state invariant

The heading forest built by `parse` satisfies: every stack entry and every
child reference is a valid heap index, children that are headers have
strictly greater level than their parent, each header reference occurs at
most once in the document and at most once across all children lists, the
stack has no duplicates, and no stack entry has been emitted to the
document yet. -/

structure Inv (doc : List Node) (stk : List Nat) (heap : List Header) : Prop where
  stackLt : ∀ i ∈ stk, i < heap.length
  childLevel : ∀ p, p < heap.length → ∀ j, Node.header j ∈ (hGet heap p).children →
    j < heap.length ∧ (hGet heap p).level < (hGet heap j).level
  docLt : ∀ j, Node.header j ∈ doc → j < heap.length
  docOnce : ∀ j, countNode j doc ≤ 1
  childOnce : ∀ j, childCount j heap ≤ 1
  stackNodup : stk.Nodup
  docStack : ∀ j ∈ stk, countNode j doc = 0

/-- The invariant, phrased on a parser state. -/
def InvS (st : PState) : Prop := Inv st.document st.stack st.heap

theorem Inv.childCount_fresh {d : List Node} {s : List Nat} {h : List Header}
    (hI : Inv d s h) {j : Nat} (hj : h.length ≤ j) : childCount j h = 0 := by
  by_contra hc
  obtain ⟨p, hp, hm⟩ := exists_of_childCount_pos (Nat.pos_of_ne_zero hc)
  have := (hI.childLevel p hp j hm).1
  omega

theorem Inv.docCount_fresh {d : List Node} {s : List Nat} {h : List Header}
    (hI : Inv d s h) {j : Nat} (hj : h.length ≤ j) : countNode j d = 0 := by
  refine countNode_eq_zero_of_not_mem fun hm => ?_
  have := hI.docLt j hm
  omega

theorem Inv.stack_fresh {d : List Node} {s : List Nat} {h : List Header}
    (hI : Inv d s h) {j : Nat} (hj : h.length ≤ j) : j ∉ s := by
  intro hm
  have := hI.stackLt j hm
  omega

theorem inv_attachDocNode {d : List Node} {s : List Nat} {h : List Header}
    (hI : Inv d s h) (n : Node) (hn : ∀ j, n ≠ Node.header j) : Inv (d ++ [n]) s h := by
  refine ⟨hI.stackLt, hI.childLevel, ?_, ?_, hI.childOnce, hI.stackNodup, ?_⟩
  · intro j hm
    rcases List.mem_append.1 hm with h1 | h1
    · exact hI.docLt j h1
    · rw [List.mem_singleton] at h1
      exact absurd h1.symm (hn j)
  · intro j
    rw [countNode_append, countNode_single_nonheader j n hn]
    simpa using hI.docOnce j
  · intro j hj
    rw [countNode_append, countNode_single_nonheader j n hn, hI.docStack j hj]

theorem inv_attachChildNode {d : List Node} {s : List Nat} {h : List Header} {cur : Nat}
    (hI : Inv d s h) (hcur : cur < h.length) (n : Node) (hn : ∀ j, n ≠ Node.header j) :
    Inv d s (appendChild h cur n) := by
  refine ⟨?_, ?_, ?_, hI.docOnce, ?_, hI.stackNodup, hI.docStack⟩
  · intro i hi
    rw [length_appendChild]
    exact hI.stackLt i hi
  · intro p hp j hm
    rw [length_appendChild] at hp ⊢
    rw [level_appendChild n p hcur, level_appendChild n j hcur]
    rw [children_appendChild n p hcur] at hm
    by_cases hcp : cur = p
    · rw [if_pos hcp] at hm
      rcases List.mem_append.1 hm with h1 | h1
      · rw [hcp] at h1
        exact hI.childLevel p hp j h1
      · rw [List.mem_singleton] at h1
        exact absurd h1.symm (hn j)
    · rw [if_neg hcp] at hm
      exact hI.childLevel p hp j hm
  · intro j hm
    rw [length_appendChild]
    exact hI.docLt j hm
  · intro j
    rw [childCount_appendChild j n h cur hcur, countNode_single_nonheader j n hn]
    simpa using hI.childOnce j

theorem inv_setPreserve {d : List Node} {s : List Nat} {h : List Header} {cur : Nat}
    (hI : Inv d s h) (h' : Header) (hch : h'.children = (hGet h cur).children)
    (hlv : h'.level = (hGet h cur).level) : Inv d s (h.set cur h') := by
  have hlen : (h.set cur h').length = h.length := by simp
  have hchildren : ∀ q, (hGet (h.set cur h') q).children = (hGet h q).children := by
    intro q
    by_cases hcq : cur = q
    · subst hcq
      by_cases hlt : cur < h.length
      · rw [hGet_set_self h cur h' hlt, hch]
      · rw [List.set_eq_of_length_le (by omega)]
    · rw [hGet_set_ne h cur q h' hcq]
  have hlevel : ∀ q, (hGet (h.set cur h') q).level = (hGet h q).level := by
    intro q
    by_cases hcq : cur = q
    · subst hcq
      by_cases hlt : cur < h.length
      · rw [hGet_set_self h cur h' hlt, hlv]
      · rw [List.set_eq_of_length_le (by omega)]
    · rw [hGet_set_ne h cur q h' hcq]
  refine ⟨?_, ?_, ?_, hI.docOnce, ?_, hI.stackNodup, hI.docStack⟩
  · intro i hi
    rw [hlen]
    exact hI.stackLt i hi
  · intro p hp j hm
    rw [hlen] at hp ⊢
    rw [hchildren p] at hm
    rw [hlevel p, hlevel j]
    exact hI.childLevel p hp j hm
  · intro j hm
    rw [hlen]
    exact hI.docLt j hm
  · intro j
    rw [childCount_set_children_eq j h cur h' hch]
    exact hI.childOnce j

theorem childLevel_extend {d : List Node} {s : List Nat} {h : List Header}
    (hI : Inv d s h) {hdr : Header} (hch : hdr.children = []) :
    ∀ p, p < (h ++ [hdr]).length → ∀ j, Node.header j ∈ (hGet (h ++ [hdr]) p).children →
      j < (h ++ [hdr]).length ∧ (hGet (h ++ [hdr]) p).level < (hGet (h ++ [hdr]) j).level := by
  intro p hp j hm
  rw [List.length_append, List.length_singleton] at hp ⊢
  by_cases hpl : p < h.length
  · rw [hGet_append_lt [hdr] h p hpl] at hm ⊢
    obtain ⟨hjl, hlvl⟩ := hI.childLevel p hpl j hm
    rw [hGet_append_lt [hdr] h j hjl]
    exact ⟨by omega, hlvl⟩
  · have hpe : p = h.length := by omega
    rw [hpe, hGet_append_len h hdr, hch] at hm
    exact absurd hm (List.not_mem_nil _)

theorem inv_push_empty {d : List Node} {h : List Header}
    (hI : Inv d [] h) {hdr : Header} (hch : hdr.children = []) :
    Inv d [h.length] (h ++ [hdr]) := by
  refine ⟨?_, childLevel_extend hI hch, ?_, hI.docOnce, ?_, List.nodup_singleton _, ?_⟩
  · intro i hi
    rw [List.mem_singleton] at hi
    subst hi
    simp
  · intro j hm
    have := hI.docLt j hm
    simp only [List.length_append, List.length_singleton]
    omega
  · intro j
    rw [childCount_append_single, hch]
    show childCount j h + countNode j [] ≤ 1
    simpa [countNode] using hI.childOnce j
  · intro j hj
    rw [List.mem_singleton] at hj
    subst hj
    exact hI.docCount_fresh (le_refl _)

theorem inv_push_child {d : List Node} {cur : Nat} {rest : List Nat} {h : List Header}
    (hI : Inv d (cur :: rest) h) {hdr : Header} (hch : hdr.children = [])
    (hlv : ¬ hdr.level ≤ (hGet h cur).level) :
    Inv d (h.length :: cur :: rest) (appendChild (h ++ [hdr]) cur (.header h.length)) := by
  have hcur : cur < h.length := hI.stackLt cur (List.mem_cons_self cur rest)
  have hcur' : cur < (h ++ [hdr]).length := by
    rw [List.length_append, List.length_singleton]
    omega
  have hlen : (appendChild (h ++ [hdr]) cur (.header h.length)).length = h.length + 1 := by
    rw [length_appendChild, List.length_append, List.length_singleton]
  refine ⟨?_, ?_, ?_, hI.docOnce, ?_, ?_, ?_⟩
  · intro i hi
    rw [hlen]
    rcases List.mem_cons.1 hi with h1 | h1
    · omega
    · have := hI.stackLt i h1
      omega
  · intro p hp j hm
    rw [hlen] at hp ⊢
    rw [level_appendChild _ p hcur', level_appendChild _ j hcur']
    rw [children_appendChild _ p hcur'] at hm
    by_cases hcp : cur = p
    · rw [if_pos hcp] at hm
      rw [← hcp] at hp ⊢
      rw [hGet_append_lt [hdr] h cur hcur] at hm ⊢
      rcases List.mem_append.1 hm with h1 | h1
      · obtain ⟨hjl, hlvl⟩ := hI.childLevel cur hcur j h1
        rw [hGet_append_lt [hdr] h j hjl]
        exact ⟨by omega, hlvl⟩
      · rw [List.mem_singleton, Node.header.injEq] at h1
        subst h1
        rw [hGet_append_len h hdr]
        exact ⟨by omega, by omega⟩
    · rw [if_neg hcp] at hm
      by_cases hpl : p < h.length
      · rw [hGet_append_lt [hdr] h p hpl] at hm ⊢
        obtain ⟨hjl, hlvl⟩ := hI.childLevel p hpl j hm
        rw [hGet_append_lt [hdr] h j hjl]
        exact ⟨by omega, hlvl⟩
      · have hpe : p = h.length := by omega
        rw [hpe, hGet_append_len h hdr, hch] at hm
        exact absurd hm (List.not_mem_nil _)
  · intro j hm
    rw [hlen]
    have := hI.docLt j hm
    omega
  · intro j
    rw [childCount_appendChild j _ _ cur hcur', childCount_append_single, hch,
      countNode_single_header]
    show childCount j h + countNode j [] + _ ≤ 1
    by_cases hje : h.length = j
    · rw [if_pos hje, ← hje]
      rw [hI.childCount_fresh (le_refl _)]
      simp [countNode]
    · rw [if_neg hje]
      simpa [countNode] using hI.childOnce j
  · rw [List.nodup_cons]
    exact ⟨hI.stack_fresh (le_refl _), hI.stackNodup⟩
  · intro j hj
    rcases List.mem_cons.1 hj with h1 | h1
    · subst h1
      exact hI.docCount_fresh (le_refl _)
    · exact hI.docStack j h1

theorem inv_push_unwind {d : List Node} {cur : Nat} {rest : List Nat} {h : List Header}
    (hI : Inv d (cur :: rest) h) {hdr : Header} (hch : hdr.children = []) :
    Inv (d ++ [.header (unwind h hdr.level cur rest).1])
      (h.length :: (unwind h hdr.level cur rest).2) (h ++ [hdr]) := by
  set t := (unwind h hdr.level cur rest).1 with ht
  set rest' := (unwind h hdr.level cur rest).2 with hrest
  have hsub : ∀ x ∈ t :: rest', x ∈ cur :: rest :=
    fun x hx => (unwind_suffix h hdr.level cur rest).subset hx
  have hnd : (t :: rest').Nodup :=
    hI.stackNodup.sublist (unwind_suffix h hdr.level cur rest).sublist
  have htmem : t ∈ cur :: rest := hsub t (List.mem_cons_self t rest')
  have htlt : t < h.length := hI.stackLt t htmem
  have htnr : t ∉ rest' := (List.nodup_cons.1 hnd).1
  refine ⟨?_, childLevel_extend hI hch, ?_, ?_, ?_, ?_, ?_⟩
  · intro i hi
    rw [List.length_append, List.length_singleton]
    rcases List.mem_cons.1 hi with h1 | h1
    · omega
    · have := hI.stackLt i (hsub i (List.mem_cons_of_mem t h1))
      omega
  · intro j hm
    rw [List.length_append, List.length_singleton]
    rcases List.mem_append.1 hm with h1 | h1
    · have := hI.docLt j h1
      omega
    · rw [List.mem_singleton, Node.header.injEq] at h1
      omega
  · intro j
    rw [countNode_append, countNode_single_header]
    by_cases hje : t = j
    · rw [if_pos hje, ← hje, hI.docStack t htmem]
    · rw [if_neg hje]
      simpa using hI.docOnce j
  · intro j
    rw [childCount_append_single, hch]
    show childCount j h + countNode j [] ≤ 1
    simpa [countNode] using hI.childOnce j
  · rw [List.nodup_cons]
    refine ⟨fun hm => ?_, (List.nodup_cons.1 hnd).2⟩
    have := hI.stackLt _ (hsub _ (List.mem_cons_of_mem t hm))
    omega
  · intro j hj
    rw [countNode_append, countNode_single_header]
    rcases List.mem_cons.1 hj with h1 | h1
    · subst h1
      rw [hI.docCount_fresh (le_refl _), if_neg (by omega)]
    · rw [hI.docStack j (hsub j (List.mem_cons_of_mem t h1)),
        if_neg (fun he => htnr (by rw [he]; exact h1))]

theorem inv_pushHeader {st : PState} (hI : InvS st) {hdr : Header}
    (hch : hdr.children = []) : InvS (pushHeader st hdr) := by
  obtain ⟨d, s, od, h⟩ := st
  unfold pushHeader
  cases s with
  | nil => exact inv_push_empty hI hch
  | cons cur rest =>
    by_cases hlv : hdr.level ≤ (hGet h cur).level
    · show InvS (if hdr.level ≤ (hGet h cur).level then _ else _)
      rw [if_pos hlv]
      exact inv_push_unwind hI hch
    · show InvS (if hdr.level ≤ (hGet h cur).level then _ else _)
      rw [if_neg hlv]
      exact inv_push_child hI hch hlv

theorem inv_closeDrawer {st : PState} (hI : InvS st) : InvS (closeDrawer st) := by
  obtain ⟨d, s, od, h⟩ := st
  unfold closeDrawer
  cases s with
  | nil => exact inv_attachDocNode hI _ (drawerNode_ne_header od)
  | cons cur rest =>
    exact inv_attachChildNode hI (hI.stackLt cur (List.mem_cons_self cur rest)) _
      (drawerNode_ne_header od)

theorem inv_setSchedTop {st : PState} (hI : InvS st) (v : Option Date) :
    InvS (setSchedTop st v) := by
  obtain ⟨d, s, od, h⟩ := st
  unfold setSchedTop
  cases s with
  | nil => exact hI
  | cons cur rest => exact inv_setPreserve hI _ rfl rfl

theorem inv_setDeadTop {st : PState} (hI : InvS st) (v : Option Date) :
    InvS (setDeadTop st v) := by
  obtain ⟨d, s, od, h⟩ := st
  unfold setDeadTop
  cases s with
  | nil => exact hI
  | cons cur rest => exact inv_setPreserve hI _ rfl rfl

theorem inv_attachDirectiveS {st : PState} (hI : InvS st) (name : String)
    (args : Option String) : InvS (attachDirective st name args) := by
  obtain ⟨d, s, od, h⟩ := st
  unfold attachDirective
  cases od with
  | some d' => exact hI
  | none =>
    cases s with
    | nil => exact inv_attachDocNode hI _ (by intro j; simp)
    | cons cur rest =>
      exact inv_attachChildNode hI (hI.stackLt cur (List.mem_cons_self cur rest)) _
        (by intro j; simp)

theorem inv_attachMarkupS {st : PState} (hI : InvS st) (m : List MElem) :
    InvS (attachMarkup st m) := by
  obtain ⟨d, s, od, h⟩ := st
  unfold attachMarkup
  cases od with
  | some d' => exact hI
  | none =>
    cases s with
    | nil => exact inv_attachDocNode hI _ (by intro j; simp)
    | cons cur rest =>
      exact inv_attachChildNode hI (hI.stackLt cur (List.mem_cons_self cur rest)) _
        (by intro j; simp)

theorem mkHeader_children {fuel : Nat} {kws : List String} {lvl : Nat}
    {txt : List Char} {hdr : Header} (hmk : mkHeader fuel kws lvl txt = some hdr) :
    hdr.children = [] := by
  unfold mkHeader at hmk
  rw [Option.map_eq_some'] at hmk
  obtain ⟨m, _, h2⟩ := hmk
  rw [← h2]

theorem inv_pstepRest {fuel : Nat} {kws : List String} {st st' : PState} {cs : List Char}
    (hI : InvS st) (he : pstepRest fuel kws st cs = some (.ok st')) : InvS st' := by
  unfold pstepRest at he
  split at he
  · rw [Option.map_eq_some'] at he
    obtain ⟨hdr, hmk, heq⟩ := he
    simp only [Except.ok.injEq] at heq
    rw [← heq]
    exact inv_pushHeader hI (mkHeader_children hmk)
  · split at he
    · split at he
      · simp at he
      · simp only [Option.some.injEq, Except.ok.injEq] at he
        rw [← he]
        exact inv_setSchedTop hI _
    · split at he
      · split at he
        · simp at he
        · simp only [Option.some.injEq, Except.ok.injEq] at he
          rw [← he]
          exact inv_setDeadTop hI _
      · split at he
        · simp only [Option.some.injEq, Except.ok.injEq] at he
          rw [← he]
          exact inv_attachDirectiveS hI _ _
        · rw [Option.map_eq_some'] at he
          obtain ⟨m, _, heq⟩ := he
          simp only [Except.ok.injEq] at heq
          rw [← heq]
          exact inv_attachMarkupS hI _

theorem inv_pstep {fuel : Nat} {kws : List String} {st st' : PState} {cs : List Char}
    (hI : InvS st) (he : pstep fuel kws st cs = some (.ok st')) : InvS st' := by
  unfold pstep at he
  split at he
  · simp only [Option.some.injEq, Except.ok.injEq] at he
    split at he
    · rw [← he]
      exact inv_closeDrawer hI
    · rw [← he]
      exact hI
  · split at he
    · simp only [Option.some.injEq, Except.ok.injEq] at he
      rw [← he]
      exact hI
    · exact inv_pstepRest hI he

theorem inv_runLines {fuel : Nat} {kws : List String} :
    ∀ {st st' : PState} {ls : List (List Char)}, InvS st →
      runLines fuel kws st ls = some (.ok st') → InvS st' := by
  intro st st' ls
  induction ls generalizing st with
  | nil =>
    intro hI he
    unfold runLines at he
    simp only [Option.some.injEq, Except.ok.injEq] at he
    rw [← he]
    exact hI
  | cons l ls ih =>
    intro hI he
    unfold runLines at he
    split at he
    · simp at he
    · simp at he
    · rename_i st1 hp
      exact ih (inv_pstep hI hp) he

theorem inv_initState : InvS initState := by
  refine ⟨?_, ?_, ?_, ?_, ?_, ?_, ?_⟩
  · intro i hi
    exact absurd hi (List.not_mem_nil i)
  · intro p hp
    exact absurd hp (by simp [initState])
  · intro j hj
    exact absurd hj (List.not_mem_nil _)
  · intro j
    simp [initState, countNode]
  · intro j
    simp [initState, childCount]
  · exact List.nodup_nil
  · intro j hj
    exact absurd hj (List.not_mem_nil j)

/-- Decompose a successful `parse` into the final loop state. -/
theorem parse_ok_state {fuel : Nat} {s : String} {kws : List String}
    {doc : List Node} {heap : List Header}
    (h : parse fuel s kws = some (.ok (doc, heap))) :
    ∃ st : PState, runLines fuel kws initState (splitLines s.data) = some (.ok st) ∧
      InvS st ∧ st.document ++ st.stack.reverse.map Node.header = doc ∧ st.heap = heap := by
  unfold parse at h
  rw [Option.map_eq_some'] at h
  obtain ⟨r, hr, hmap⟩ := h
  cases r with
  | error e => simp [Except.map] at hmap
  | ok st =>
    simp only [Except.map, Except.ok.injEq] at hmap
    unfold finalize at hmap
    rw [Prod.mk.injEq] at hmap
    exact ⟨st, hr, inv_runLines inv_initState hr, hmap.1, hmap.2⟩

/-! ## Claims -/

/-- The top-level sequence and the heap of the counterexample document
`"* A\n** B\n*** C\n*** D"`. -/
def c1Doc : List Node := [Node.header 1, Node.header 0, Node.header 3]

def c1Heap : List Header :=
  [⟨1, [.element .NONE "A"], [], none, none, none, none, [Node.header 1]⟩,
   ⟨2, [.element .NONE "B"], [], none, none, none, none, [Node.header 2]⟩,
   ⟨3, [.element .NONE "C"], [], none, none, none, none, []⟩,
   ⟨3, [.element .NONE "D"], [], none, none, none, none, []⟩]

/-- The top-level sequence and the heap of the counterexample document
`"* A\n** B\n*** C\n*** D\n** E"`, in which heading D (heap index 3) is
lost: it is neither in the top-level sequence nor in any children list. -/
def c1DocE : List Node := [Node.header 1, Node.header 0, Node.header 4]

def c1HeapE : List Header :=
  [⟨1, [.element .NONE "A"], [], none, none, none, none, [Node.header 1]⟩,
   ⟨2, [.element .NONE "B"], [], none, none, none, none, [Node.header 2]⟩,
   ⟨3, [.element .NONE "C"], [], none, none, none, none, []⟩,
   ⟨3, [.element .NONE "D"], [], none, none, none, none, []⟩,
   ⟨2, [.element .NONE "E"], [], none, none, none, none, []⟩]

/-- C1, counterexample: on `"* A\n** B\n*** C\n*** D"` the unwinding pop
loop appends heading B (heap index 1) to the top-level sequence even
though B was already linked into the children of heading A (heap index 0),
which is itself top-level — so a heading is reachable both as a child of
another heading and as a top-level node; and on
`"* A\n** B\n*** C\n*** D\n** E"` heading D (heap index 3) is parsed but
lost, occurring neither in the top-level sequence nor in any children
list.  Both refute the claim. -/
theorem c1_counterexample :
    (parse 100 "* A\n** B\n*** C\n*** D" defaultKws = some (.ok (c1Doc, c1Heap)) ∧
      Node.header 1 ∈ c1Doc ∧ Node.header 0 ∈ c1Doc ∧
      Node.header 1 ∈ (hGet c1Heap 0).children) ∧
    (parse 100 "* A\n** B\n*** C\n*** D\n** E" defaultKws = some (.ok (c1DocE, c1HeapE)) ∧
      3 < c1HeapE.length ∧ countNode 3 c1DocE = 0 ∧ childCount 3 c1HeapE = 0) := by
  refine ⟨⟨by decide, by decide, by decide, by decide⟩,
    by decide, by decide, by decide, by decide⟩

/-- C1, amended: every heading reference occurs at most once in the
top-level sequence returned by `parse` and at most once across all
children lists, but a heading appended to the top-level sequence by the
unwinding pop loop can additionally be one that was already linked into a
remaining ancestor's children, and a heading can be lost entirely. -/
theorem c1_theorem (fuel : Nat) (s : String) (kws : List String) (doc : List Node)
    (heap : List Header) (h : parse fuel s kws = some (.ok (doc, heap))) (j : Nat) :
    countNode j doc ≤ 1 ∧ childCount j heap ≤ 1 := by
  obtain ⟨st, hr, hI, hdoc, hheap⟩ := parse_ok_state h
  constructor
  · rw [← hdoc, countNode_append, countNode_map_header, natCount_reverse]
    by_cases hj : j ∈ st.stack
    · rw [hI.docStack j hj]
      simpa using natCount_le_one_of_nodup hI.stackNodup
    · rw [natCount_eq_zero_of_not_mem hj]
      simpa using hI.docOnce j
  · rw [← hheap]
    exact hI.childOnce j

/-- C1, witness: instantiating the amended claim on the document `"* a"`
at reference 0. -/
theorem c1_witness :
    countNode 0 [Node.header 0] ≤ 1 ∧
    childCount 0 [⟨1, [MElem.element .NONE "a"], [], none, none, none, none, []⟩] ≤ 1 :=
  c1_theorem 100 "* a" defaultKws _ _ (by decide) 0

/-- C2: parsing `"* TODO [#A] Buy milk :home:errand:"` with the default
keywords yields `level = 1`, `todo = "TODO"` and `tags = ["home",
"errand"]` as the claim says, but `priority` is left `None` and the
`[#A]` marker stays in the title markup, because `priority_re` demands a
leading space that `text[len(todo) + 1:]` has already consumed — the code
contradicts the spec's heading-with-metadata example. -/
theorem c2_theorem :
    parse 100 "* TODO [#A] Buy milk :home:errand:" defaultKws =
      some (.ok ([Node.header 0],
        [{ level := 1, text := [MElem.element .NONE "[#A] Buy milk"],
           tags := ["home", "errand"], todo := some "TODO", priority := none,
           scheduled := none, deadline := none, children := [] }])) := by
  decide

/-- C3: on the document `"* H\nSCHEDULED: <2024-13-01 Mon>"` the timestamp
is shape-valid, so `parse_date` reaches `datetime.date(2024, 13, 1)`,
which raises `ValueError`; the exception propagates out of `parse`
(modelled as `.error ()`), contradicting the claim that the date field is
left unset and parsing continues. -/
theorem c3_theorem :
    parse 100 "* H\nSCHEDULED: <2024-13-01 Mon>" defaultKws = some (.error ()) := by
  decide

/-- C4: on `"a [[u][d]]"` the link branch of `parse_markup` emits the
`Link` without first flushing the buffered text `"a "`, and resumes at
the slice-relative match end plus one, re-scanning the final `]` of the
link; the result is `[Link u d, Element none "a ]"]` instead of the
claimed `[Element none "a ", Link u d]` — so the Element does not precede
the Link and a character of the link is duplicated into the plain text. -/
theorem c4_theorem :
    parse_markup 100 "a [[u][d]]" =
      some [MElem.link (some "u") (some "d"), MElem.element .NONE "a ]"] := by
  decide

/-- C5, counterexample: in `":D:\nx"` a drawer `D` is opened and never
closed; at end of input the loop state still holds the open drawer with
its accumulated entry, yet `parse` returns an empty top-level sequence —
the drawer is discarded, not flushed, refuting the claim. -/
theorem c5_counterexample :
    runLines 100 defaultKws initState (splitLines (":D:\nx").data) =
      some (.ok ⟨[], [], some ⟨"D", [DEntry.markup [MElem.element .NONE "x"]]⟩, []⟩) ∧
    parse 100 ":D:\nx" defaultKws = some (.ok ([], [])) := by
  refine ⟨by decide, by decide⟩

/-- C5, amended: an open drawer still pending at end of input is discarded
rather than flushed — the value returned by `parse` is the accumulated
document plus the drained heading stack only, independent of the open
drawer. -/
theorem c5_theorem (fuel : Nat) (s : String) (kws : List String) (st : PState)
    (h : runLines fuel kws initState (splitLines s.data) = some (.ok st)) :
    parse fuel s kws = some (.ok (st.document ++ st.stack.reverse.map Node.header, st.heap)) := by
  unfold parse
  rw [h]
  rfl

/-- C5, witness: instantiating the amended claim on `":D:\nx"`, whose
final loop state holds an open drawer with one accumulated entry. -/
theorem c5_witness : parse 100 ":D:\nx" defaultKws = some (.ok ([], [])) :=
  c5_theorem 100 ":D:\nx" defaultKws
    ⟨[], [], some ⟨"D", [DEntry.markup [MElem.element .NONE "x"]]⟩, []⟩ (by decide)

/-- C6: for every input accepted by `parse`, every header reference in a
header's children points to a valid heap entry of strictly greater
level. -/
theorem c6_theorem (fuel : Nat) (s : String) (kws : List String) (doc : List Node)
    (heap : List Header) (h : parse fuel s kws = some (.ok (doc, heap)))
    (p : Nat) (hp : p < heap.length) (j : Nat)
    (hj : Node.header j ∈ (hGet heap p).children) :
    j < heap.length ∧ (hGet heap p).level < (hGet heap j).level := by
  obtain ⟨st, hr, hI, hdoc, hheap⟩ := parse_ok_state h
  rw [← hheap] at hp hj ⊢
  exact hI.childLevel p hp j hj

/-- C6, witness: instantiating on `"* a\n** b"`, where heading b (level 2,
heap index 1) is a child of heading a (level 1, heap index 0). -/
theorem c6_witness :
    1 < ([⟨1, [MElem.element .NONE "a"], [], none, none, none, none, [Node.header 1]⟩,
          ⟨2, [MElem.element .NONE "b"], [], none, none, none, none, []⟩] : List Header).length ∧
    (hGet [⟨1, [MElem.element .NONE "a"], [], none, none, none, none, [Node.header 1]⟩,
           ⟨2, [MElem.element .NONE "b"], [], none, none, none, none, []⟩] 0).level <
      (hGet [⟨1, [MElem.element .NONE "a"], [], none, none, none, none, [Node.header 1]⟩,
             ⟨2, [MElem.element .NONE "b"], [], none, none, none, none, []⟩] 1).level :=
  c6_theorem 100 "* a\n** b" defaultKws [Node.header 0, Node.header 1] _ (by decide) 0
    (by decide) 1 (by decide)

/-- C7: a style delimiter with no later occurrence of the same character
falls through to the plain-text buffer (one loop step of `parse_markup`),
and in particular `parse_markup "a *bold"` is the single element
`Element(none, "a *bold")`. -/
theorem c7_theorem :
    (∀ (fuel : Nat) (cs : List Char) (i : Nat) (tn : Option String) (m : List MElem) (c : Char),
        cs[i]? = some c → markup_char c ≠ .NONE → strFind cs c (i + 1) = none →
        pmLoop (fuel + 1) cs i tn m = pmLoop fuel cs (i + 1) (pushBuf tn c) m) ∧
    parse_markup 100 "a *bold" = some [MElem.element .NONE "a *bold"] := by
  constructor
  · intro fuel cs i tn m c h1 h2 h3
    have hbr : c ≠ '[' := by
      intro hc
      rw [hc] at h2
      exact h2 rfl
    rw [pmLoop]
    simp only [h1]
    rw [if_neg hbr]
    simp only [h3]
  · decide

/-- C7, witness: one buffering step on the list `['a', '*']` at index 1,
where the `*` has no later match. -/
theorem c7_witness :
    pmLoop 5 ('a' :: '*' :: []) 1 (some "a") [] =
      pmLoop 4 ('a' :: '*' :: []) 2 (pushBuf (some "a") '*') [] :=
  c7_theorem.1 4 ('a' :: '*' :: []) 1 (some "a") [] '*' (by decide) (by decide) (by decide)

/-- C8: when the line is exactly `:END:` and no drawer is open, `parse`
appends the Python value `None` to the open heading's children when a
heading is open, and otherwise to the top-level sequence. -/
theorem c8_theorem (fuel : Nat) (kws : List String) (st : PState)
    (hd : st.openDrawer = none) :
    pstep fuel kws st (":END:".data) =
      some (.ok (match st.stack with
        | cur :: _ => { st with heap := appendChild st.heap cur Node.pynone, openDrawer := none }
        | [] => { st with document := st.document ++ [Node.pynone], openDrawer := none })) := by
  obtain ⟨d, s, od, h⟩ := st
  replace hd : od = none := hd
  subst hd
  cases s with
  | nil => rfl
  | cons cur rest => rfl

/-- C8, witness: a `:END:` line on the initial state (no open heading, no
open drawer) appends `None` to the top-level sequence. -/
theorem c8_witness :
    pstep 5 defaultKws initState (":END:".data) =
      some (.ok { initState with document := [Node.pynone], openDrawer := none }) :=
  c8_theorem 5 defaultKws initState rfl

/-- C9: a drawer boundary line whose name is not `END` seen while a drawer
is open replaces the open drawer with a new empty drawer of the new name;
the document, heading stack and heap are unchanged, so the previous drawer
and its accumulated entries are discarded without being attached. -/
theorem c9_theorem (fuel : Nat) (kws : List String) (st : PState) (d : Drawer)
    (name : List Char) (cs : List Char) (hd : st.openDrawer = some d)
    (hm : drawerMatch cs = some name) (hne : String.mk name ≠ "END") :
    pstep fuel kws st cs = some (.ok { st with openDrawer := some ⟨String.mk name, []⟩ }) := by
  have hcs : cs ≠ ":END:".data := by
    intro hc
    rw [hc] at hm
    have h2 : drawerMatch (":END:".data) = some ('E' :: 'N' :: 'D' :: []) := by decide
    rw [h2, Option.some.injEq] at hm
    rw [← hm] at hne
    exact hne rfl
  unfold pstep
  rw [hm]
  show (some (Except.ok (if cs = ":END:".data then closeDrawer st
    else openNewDrawer st (String.mk name))) : Option (Except Unit PState)) = _
  rw [if_neg hcs]
  rfl

/-- C9, witness: a `:X:` line while drawer `D` (holding one pair) is open
replaces it by an empty drawer `X` and attaches nothing. -/
theorem c9_witness :
    pstep 5 defaultKws ⟨[], [], some ⟨"D", [DEntry.pair "K" "V"]⟩, []⟩ (":X:".data) =
      some (.ok ⟨[], [], some ⟨String.mk ('X' :: []), []⟩, []⟩) :=
  c9_theorem 5 defaultKws
    (⟨[], [], some ⟨"D", [DEntry.pair "K" "V"]⟩, []⟩ : PState)
    (⟨"D", [DEntry.pair "K" "V"]⟩ : Drawer) ('X' :: []) (":X:".data) rfl (by decide) (by decide)

/-- C10: `parse` on the empty string returns exactly one node, a markup
block with an empty element sequence, and on the single newline document
every line contributes one node, giving two empty markup blocks. -/
theorem c10_theorem :
    parse 100 "" defaultKws = some (.ok ([Node.markup []], [])) ∧
    parse 100 "\n" defaultKws = some (.ok ([Node.markup [], Node.markup []], [])) := by
  refine ⟨by decide, by decide⟩

end OrgPy
